import Mathlib

/-!
Verification of the excelshifts scheduling core.

The definitions below are a shallow embedding of the Python sources:
  * `state.py` (domain model: `Day`, `Resident`, `Instance`, derived `end_of_month`),
  * `model/constraints.py` (target filter, rule catalogue, `apply_rules`),
  * `model/build.py` (the registry-based `build_model`, "Option B"),
  * `pipeline.py` (`_extract_matrix`, `_core_rule_ids`, `_shrink_core_to_mus`,
    and the INFEASIBLE branch of the relaxation loop in `assign`).

Solver valuations are modelled as boolean functions and solver infeasibility
checks as boolean oracles.  CP-SAT constraints are modelled as the data each
rule emits (variable-key lists plus bounds); every constraint a rule emits is
guarded by the rule's enable literal in the source, so the emitted list as a
whole represents the enable-guarded constraint set of that rule.
-/

namespace ExcelShifts

/-- Embeds `state.Day`: a day of the month with its weekday letter. -/
structure Day where
  number : Nat
  day_of_week : String
deriving DecidableEq, Inhabited

/-- Embeds `state.Resident`: a resident with a name and a rank string. -/
structure Resident where
  name : String
  rank : String
deriving DecidableEq, Inhabited

/-- Embeds `state.Instance`: the immutable problem instance.  Tuples and
frozensets of the Python dataclass become lists; all relations carry indices. -/
structure Instance where
  residents : List Resident
  days : List Day
  v_positions : List (Nat × Nat)
  u_positions : List (Nat × Nat)
  ut_positions : List (Nat × Nat)
  p_positions : List (Nat × Nat)
  extra_p_days : List Nat
  external_rotations : List Nat
  presets : List (Nat × Nat × Nat)
deriving DecidableEq, Inhabited

/-- Embeds the scan in `Instance.__post_init__`: starting at index `idx`,
return the first index whose day number is smaller than its predecessor's,
else `days.length`.  The Python loop runs `idx` over `range(1, len(days))`
and breaks at the first drop. -/
def eomFrom (days : List Day) (idx : Nat) : Nat :=
  if _h : idx < days.length then
    if (days.getD idx default).number < (days.getD (idx - 1) default).number then idx
    else eomFrom days (idx + 1)
  else days.length
termination_by days.length - idx
decreasing_by omega

/-- Embeds the derived `end_of_month` field of `state.Instance`. -/
def end_of_month (days : List Day) : Nat :=
  eomFrom days 1

/-- The drop condition of the `end_of_month` scan as a Bool, at index `j`. -/
def dropCondB (days : List Day) (j : Nat) : Bool :=
  decide (j < days.length) &&
    decide ((days.getD j default).number < (days.getD (j - 1) default).number)

/-- The spec-side predicate: index `j ≥ 1` is in range and its day number
drops below its predecessor's. -/
def dayDropAt (days : List Day) (j : Nat) : Prop :=
  0 < j ∧ j < days.length ∧
    (days.getD j default).number < (days.getD (j - 1) default).number

instance (days : List Day) (j : Nat) : Decidable (dayDropAt days j) := by
  unfold dayDropAt; infer_instance

/-- The four target-filter params of `BaseRule.targets` (`constraints.py`).
The Python code turns each provided iterable into a set; only membership and
emptiness of these collections matter, so lists model them. -/
structure FilterParams where
  include_ranks : List String
  exclude_ranks : List String
  include_names : List String
  exclude_names : List String
deriving DecidableEq, Inhabited

/-- Embeds the `active` list of `BaseRule.targets`: the names of the non-empty
filters, in the fixed order of the source tuple. -/
def activeFilters (fp : FilterParams) : List String :=
  ([("include_ranks", fp.include_ranks), ("exclude_ranks", fp.exclude_ranks),
    ("include_names", fp.include_names), ("exclude_names", fp.exclude_names)].filter
      (fun x => !x.2.isEmpty)).map (fun x => x.1)

/-- Embeds the source's `set(active) in (set1, set2)` test for a two-element
`active` list: the unordered pair is one of the two legal combinations. -/
def pairAllowedSet (active : List String) : Bool :=
  match active with
  | [a, b] =>
      ((a == "include_ranks" && b == "exclude_names") ||
       (a == "exclude_names" && b == "include_ranks")) ||
      ((a == "exclude_ranks" && b == "include_names") ||
       (a == "include_names" && b == "exclude_ranks"))
  | _ => false

/-- Embeds the `ok` predicate chosen by the `if`/`elif` chain of
`BaseRule.targets` according to the active filters. -/
def targetPred (fp : FilterParams) (active : List String) (r : Resident) : Bool :=
  if active.isEmpty then true
  else if active == ["include_ranks"] || active == ["exclude_ranks"] then
    if !fp.include_ranks.isEmpty then fp.include_ranks.contains r.rank
    else !(fp.exclude_ranks.contains r.rank)
  else if active == ["include_names"] || active == ["exclude_names"] then
    if !fp.include_names.isEmpty then fp.include_names.contains r.name
    else !(fp.exclude_names.contains r.name)
  else if active == ["include_ranks", "exclude_names"] then
    fp.include_ranks.contains r.rank && !(fp.exclude_names.contains r.name)
  else
    !(fp.exclude_ranks.contains r.rank) || fp.include_names.contains r.name

/-- Embeds `BaseRule.targets`: validate the filter combination (raising a
`ValueError`, modelled as `Except.error`, on an illegal one), then yield the
`(index, resident)` pairs passing the predicate, skipping residents on
external rotation. -/
def targets (inst : Instance) (fp : FilterParams) (rid : String) :
    Except String (List (Nat × Resident)) :=
  let active := activeFilters fp
  if 2 < active.length then
    Except.error ("Rule " ++ rid ++ ": at most two filters allowed")
  else if active.length == 2 && !pairAllowedSet active then
    Except.error ("Rule " ++ rid ++ ": invalid filter combination")
  else
    Except.ok (inst.residents.enum.filter
      (fun p => !(inst.external_rotations.contains p.1) && targetPred fp active p.2))

/-- Concrete two-resident instance used by witness theorems. -/
def instW10 : Instance :=
  ⟨[⟨"ana", "R1"⟩, ⟨"bob", "R2"⟩], [⟨1, "L"⟩], [], [], [], [], [], [], []⟩

/-- Concrete filter params: exclude rank R1 but whitelist the name ana. -/
def fpW10a : FilterParams := ⟨[], ["R1"], ["ana"], []⟩

/-- Concrete filter params: include rank R1, then subtract the name ana. -/
def fpW10b : FilterParams := ⟨["R1"], [], [], ["ana"]⟩

/-- A constraint emitted by a rule, modelled as the data passed to
`model.Add(...)`: a list of decision-variable keys `(i, j, k)` whose sum is
compared with a bound.  In the source every such constraint is guarded by the
emitting rule's enable literal through `.OnlyEnforceIf(enable)`. -/
inductive Constraint where
  | sumLe (vars : List (Nat × Nat × Nat)) (bound : Int)
  | sumEq (vars : List (Nat × Nat × Nat)) (rhs : Int)
deriving DecidableEq

/-- Embedded rule instances (the subset of the catalogue the claims need).
Fields mirror `BaseRule`: an optional priority override, an optional id
override, and kind-specific params. -/
inductive Rule where
  | oneShiftPerDay (priority : Option Int) (idOpt : Option String)
  | totalNumberOfShifts (priority : Option Int) (idOpt : Option String)
      (total : Int) (fp : FilterParams)
deriving DecidableEq

/-- The class-level stable `ID` of a rule. -/
def Rule.classId : Rule → String
  | .oneShiftPerDay _ _ => "one_shift_per_day"
  | .totalNumberOfShifts _ _ _ _ => "total_number_of_shifts"

/-- The instance-level `id` override of a rule, when provided. -/
def Rule.idOverride : Rule → Option String
  | .oneShiftPerDay _ i => i
  | .totalNumberOfShifts _ i _ _ => i

/-- Embeds the `rule_id` property of `BaseRule`: the instance override when it
is a non-empty string, else the class `ID`. -/
def Rule.rule_id (r : Rule) : String :=
  match r.idOverride with
  | some s => if s = "" then r.classId else s
  | none => r.classId

/-- The variable keys summed by `TotalNumberOfShifts.apply` for target `i`:
all `(i, j, k)` with day `j` strictly before `end_of_month`, in source order
(`j` outer, `k` inner). -/
def tnsVars (inst : Instance) (i : Nat) : List (Nat × Nat × Nat) :=
  ((List.range inst.days.length).filter
      (fun j => decide (j < end_of_month inst.days))).flatMap
    (fun j => (List.range 4).map (fun k => (i, j, k)))

/-- The right-hand side computed by `TotalNumberOfShifts.apply` for target
`i`: `total` minus the resident's `u` count minus half the `ut` count
(integer division), clamped at zero. -/
def tnsRhs (inst : Instance) (total : Int) (i : Nat) : Int :=
  let u_count : Nat := (inst.u_positions.filter (fun p => p.1 == i)).length
  let ut_count : Nat := (inst.ut_positions.filter (fun p => p.1 == i)).length
  let rhs : Int := total - u_count - (ut_count / 2 : Nat)
  if rhs < 0 then 0 else rhs

/-- Embeds the `apply` method of the embedded rule kinds.  The returned list
holds the enable-guarded constraints the rule adds to the model; a Python
`ValueError` from the shared target filter becomes `Except.error`. -/
def Rule.apply (r : Rule) (inst : Instance) : Except String (List Constraint) :=
  match r with
  | .oneShiftPerDay _ _ =>
      Except.ok ((List.range inst.residents.length).flatMap (fun i =>
        (List.range inst.days.length).filterMap (fun j =>
          let lits := (List.range 4).map (fun k => (i, j, k))
          if lits.isEmpty then none else some (Constraint.sumLe lits 1))))
  | .totalNumberOfShifts _ _ total fp =>
      match targets inst fp r.rule_id with
      | Except.error e => Except.error e
      | Except.ok tl =>
          let target_ids := tl.map (fun p => p.1)
          if target_ids.isEmpty then Except.ok []
          else Except.ok (target_ids.map
            (fun i => Constraint.sumEq (tnsVars inst i) (tnsRhs inst total i)))

/-- Python-dict insertion: replace the value of an existing key in place,
else append the binding at the end. -/
def dictInsert (k : String) (v : Nat) : List (String × Nat) → List (String × Nat)
  | [] => [(k, v)]
  | (k2, v2) :: rest => if k2 = k then (k2, v) :: rest else (k2, v2) :: dictInsert k v rest

/-- Loop body of `apply_rules` (`constraints.py`): apply each rule in order,
accumulating the emitted constraints and the `rule_id -> enable` dict.  The
enable literal of the `n`-th applied rule is modelled by its allocation index
`n`. -/
def applyRulesAux (inst : Instance) :
    Nat → List Rule → List Constraint → List (String × Nat) →
      Except String (List Constraint × List (String × Nat))
  | _, [], cs, en => Except.ok (cs, en)
  | n, r :: rest, cs, en =>
      match r.apply inst with
      | Except.error e => Except.error e
      | Except.ok rcs =>
          applyRulesAux inst (n + 1) rest (cs ++ rcs) (dictInsert r.rule_id n en)

/-- Embeds `apply_rules` of `constraints.py`: apply instantiated rule objects
to the model and collect `enables[rule.rule_id] = enable`. -/
def apply_rules (inst : Instance) (rules : List Rule) :
    Except String (List Constraint × List (String × Nat)) :=
  applyRulesAux inst 0 rules [] []

/-- Concrete instance for the `total_number_of_shifts` witness: one resident
with one `u` day and two `ut` days, two days in the month. -/
def instW7 : Instance :=
  ⟨[⟨"ana", "R1"⟩], [⟨1, "L"⟩, ⟨2, "M"⟩], [], [(0, 0)], [(0, 0), (0, 1)], [],
    [], [], []⟩

/-- Empty filter params (all residents targeted). -/
def fpW7 : FilterParams := ⟨[], [], [], []⟩

/-- Tiny instance (one resident, one day) for the duplicate-rule-id theorems. -/
def instW3 : Instance := ⟨[⟨"ana", "R1"⟩], [⟨1, "L"⟩], [], [], [], [], [], [], []⟩

/-- Two rule instances sharing the overridden rule id "dup". -/
def dupRules : List Rule :=
  [Rule.oneShiftPerDay none (some "dup"),
   Rule.totalNumberOfShifts none (some "dup") 1 ⟨[], [], [], []⟩]

/-- A solver boolean literal as seen by `_core_rule_ids`: Python object
identity becomes the numeric `oid`, and `.Name()` becomes `name`. -/
structure Lit where
  oid : Nat
  name : String
deriving DecidableEq, Inhabited

/-- Embeds `id_map = dict drawn over enables.items()` followed by `.get`:
for duplicate object ids the later binding overwrites the earlier one, so the
lookup prefers the rightmost match. -/
def idMapGet (enables : List (String × Lit)) (o : Nat) : Option String :=
  match enables with
  | [] => none
  | (rid, v) :: rest =>
      match idMapGet rest o with
      | some r => some r
      | none => if v.oid = o then some rid else none

/-- Embeds the fallback scan of `_core_rule_ids`: the first enable whose
literal name equals the core literal's name. -/
def nameGet (enables : List (String × Lit)) (nm : String) : Option String :=
  (enables.find? (fun p => p.2.name == nm)).map (fun p => p.1)

/-- Maps one core literal to a rule id: identity lookup first, name lookup as
fallback, `none` when both fail (the literal is silently dropped). -/
def coreLitToRid (enables : List (String × Lit)) (lit : Lit) : Option String :=
  match idMapGet enables lit.oid with
  | some rid => some rid
  | none => nameGet enables lit.name

/-- Embeds the `seen`-set dedup loop at the end of `_core_rule_ids`: keep the
first occurrence of each rule id, preserving order. -/
def dedupKeepFirst (seen : List String) : List String → List String
  | [] => []
  | r :: rest =>
      if r ∈ seen then dedupKeepFirst seen rest
      else r :: dedupKeepFirst (r :: seen) rest

/-- Embeds `_core_rule_ids` (`pipeline.py`): map every core literal to a rule
id where possible, then keep first occurrences. -/
def core_rule_ids (core_lits : List Lit) (enables : List (String × Lit)) :
    List String :=
  dedupKeepFirst [] (core_lits.filterMap (coreLitToRid enables))

/-- The `ShiftType` enum names in ordinal order 0..3 (`state.py`). -/
def shiftTypeNames : List String := ["R", "G", "T", "M"]

/-- Embeds the inner loop of `_extract_matrix`: scan the shift types in enum
order and take the name of the first `k` the solver valuation sets at
`(i, j)`, else the empty string. -/
def extractCell (v : Nat → Nat → Nat → Bool) (i j : Nat) : String :=
  match shiftTypeNames.enum.find? (fun p => v i j p.1) with
  | some p => p.2
  | none => ""

/-- Embeds `_extract_matrix` (`pipeline.py`): one row per resident, one
column per day. -/
def extract_matrix (inst : Instance) (v : Nat → Nat → Nat → Bool) :
    List (List String) :=
  (List.range inst.residents.length).map (fun i =>
    (List.range inst.days.length).map (fun j => extractCell v i j))

/-- Concrete two-resident, two-day instance for the extraction witness. -/
def instW9 : Instance :=
  ⟨[⟨"ana", "R1"⟩, ⟨"bob", "R2"⟩], [⟨1, "L"⟩, ⟨2, "M"⟩], [], [], [], [], [], [], []⟩

/-- Concrete solver valuation: only `X[0,0,1]` is set. -/
def vW9 : Nat → Nat → Nat → Bool := fun i j k => decide (i = 0 ∧ j = 0 ∧ k = 1)

/-- Embeds the loop of `_shrink_core_to_mus` (`pipeline.py`).  `mus` is the
working list, the second argument the ids of `core_ids` still to process.
For each processed id still in `mus`, solve with the assumption set
`mus` minus that id (`trial`); if the oracle still reports INFEASIBLE
(`true`), the id is permanently removed (`list.remove`, first occurrence). -/
def shrinkLoop (oracle : List String → Bool) : List String → List String →
    List String
  | mus, [] => mus
  | mus, rid :: rest =>
      if rid ∈ mus then
        if oracle (mus.filter (fun x => x != rid)) then
          shrinkLoop oracle (mus.erase rid) rest
        else shrinkLoop oracle mus rest
      else shrinkLoop oracle mus rest

/-- Embeds `_shrink_core_to_mus`: greedy deletion-based MUS shrinking of the
core list, iterating the ids of `core_ids` in their original order.  The
oracle abstracts one CP-SAT solve under the given assumption ids and returns
`true` exactly when the solver status is INFEASIBLE. -/
def shrink_core_to_mus (oracle : List String → Bool) (core_ids : List String) :
    List String :=
  shrinkLoop oracle core_ids core_ids

/-- Concrete monotone infeasibility oracle: a set of assumption ids is
infeasible exactly when it contains both "a" and "b". -/
def wOracle4 : List String → Bool :=
  fun S => decide ("a" ∈ S) && decide ("b" ∈ S)

/-- Outcome of one INFEASIBLE iteration of the `assign` loop: either the
failure return (`matrix=None` in the source, carrying the first core), or the
next loop state (updated `active_ids`, `relaxed`, `first_core`). -/
inductive RelaxStepResult where
  | fail (first_core : Option (List String))
  | next (active relaxed : List String) (first_core : Option (List String))
deriving DecidableEq

/-- Python `max` over a list of ints (`0` for the empty list, which the
source never reaches). -/
def listMaxI : List Int → Int
  | [] => 0
  | p :: ps => ps.foldl max p

/-- Embeds the INFEASIBLE branch of `assign` (`pipeline.py`, after the core
ids are computed): set `first_core` if unset, filter the core to the ids
still in `active_ids`, fail if none remain, else disable the first core
member among those with the largest priority (`rule_priority.get(rid, 0)` is
the total function `prio`).  `active_ids` is a Python set, so removal drops
the id entirely; `relaxed` gets the id appended. -/
def relaxStep (prio : String → Int) (core_rids active relaxed : List String)
    (first_core : Option (List String)) : RelaxStepResult :=
  let fc := match first_core with | none => some core_rids | some c => some c
  let enabled_core := core_rids.filter (fun rid => decide (rid ∈ active))
  if enabled_core.isEmpty then RelaxStepResult.fail fc
  else
    let max_prio := listMaxI (enabled_core.map prio)
    let candidates := core_rids.filter
      (fun rid => decide (rid ∈ enabled_core) && decide (prio rid = max_prio))
    match candidates with
    | [] => RelaxStepResult.fail fc
    | d :: _ =>
        RelaxStepResult.next (active.filter (fun x => x != d)) (relaxed ++ [d]) fc

/-- Concrete priority function for the relax-step witness. -/
def prioW1 : String → Int := fun rid => if rid = "lo" then 0 else 2

/-- The registered builder names of `rules/registry.py` (`fn.__name__` for the
entries of `BUILDERS`, in list order). -/
def BUILDERS_ids : List String :=
  ["one_shift_per_day", "restricted_day_off", "no_R_on_weekends_or_holidays",
   "rest_after_any_shift", "block_around_emergency_u", "block_around_emergency_ut",
   "external_rotation_off", "at_most_one_resident_per_shift_per_day",
   "cover_G_or_T_each_day", "min_assignments_per_day",
   "not_same_type_uncovered_both_weekend_days",
   "enforce_presets_and_R4_only_presets", "holiday_assigned_must_work",
   "r1_r2_r3_exactly_six_minus_emergencies",
   "at_least_one_of_each_type_per_resident", "non_r4_max_two_per_type",
   "r1_r2_at_least_one_weekend", "friday_requires_sunday",
   "sunday_different_type_than_friday", "block_monday_after_saturday_shift_non_r4",
   "block_monday_after_sat_emergency", "non_r4_max_one_sunday"]

/-- Embeds `create_shifts` (`model/variables.py`): one boolean variable named
`shift_i_j_k` per dense `(i, j, k)` triple. -/
def create_shifts (inst : Instance) : List ((Nat × Nat × Nat) × String) :=
  (List.range inst.residents.length).flatMap (fun i =>
    (List.range inst.days.length).flatMap (fun j =>
      (List.range 4).map (fun k =>
        ((i, j, k), "shift_" ++ toString i ++ "_" ++ toString j ++ "_" ++
          toString k))))

/-- The value actually returned by `build_model` in `model/build.py`: the
4-tuple `(model, instance, shifts, enables)` of the registry-based "Option B"
builder.  The model component is abstracted to the allocated variable names;
the constraints emitted by the library builders are not needed by any claim
and are not modelled. -/
structure OptionBReturn where
  model : List String
  inst : Instance
  shifts : List ((Nat × Nat × Nat) × String)
  enables : List (String × Nat)
deriving DecidableEq

/-- Embeds `build_model` of `model/build.py` ("Option B").  Its parameters
are `instance`, `enabled_map` and `rule_ids` — there is no `rules`
parameter — and with `rule_ids = none` it applies every registered builder in
canonical `BUILDERS` order, collecting `enables[fn.__name__] = enable`
(modelled by allocation index). -/
def build_model_optionB (inst : Instance)
    (_enabled_map : Option (List (String × Bool)))
    (rule_ids : Option (List String)) : OptionBReturn :=
  let shifts := create_shifts inst
  let ids := match rule_ids with
    | none => BUILDERS_ids
    | some rs => rs.filter (fun rid => BUILDERS_ids.contains rid)
  let enables := ids.enum.map (fun p => (p.2, p.1))
  OptionBReturn.mk (shifts.map (fun q => q.2)) inst shifts enables

theorem dropCondB_true_intro {days : List Day} {j : Nat} (h1 : j < days.length)
    (h2 : (days.getD j default).number < (days.getD (j - 1) default).number) :
    dropCondB days j = true := by
  unfold dropCondB; rw [decide_eq_true h1, decide_eq_true h2]; rfl

theorem dropCondB_false_of_not_lt {days : List Day} {j : Nat}
    (h : ¬ j < days.length) : dropCondB days j = false := by
  unfold dropCondB; rw [decide_eq_false h]; rfl

theorem dropCondB_false_of_ge {days : List Day} {j : Nat}
    (h : ¬ (days.getD j default).number < (days.getD (j - 1) default).number) :
    dropCondB days j = false := by
  unfold dropCondB; rw [decide_eq_false h]; exact Bool.and_false _

theorem eomFrom_spec (days : List Day) (idx : Nat) :
    (eomFrom days idx = days.length ∧ ∀ j, idx ≤ j → dropCondB days j = false) ∨
    (∃ j, idx ≤ j ∧ dropCondB days j = true ∧ eomFrom days idx = j ∧
      ∀ i, idx ≤ i → i < j → dropCondB days i = false) := by
  have key : ∀ fuel idx, days.length - idx ≤ fuel →
      (eomFrom days idx = days.length ∧ ∀ j, idx ≤ j → dropCondB days j = false) ∨
      (∃ j, idx ≤ j ∧ dropCondB days j = true ∧ eomFrom days idx = j ∧
        ∀ i, idx ≤ i → i < j → dropCondB days i = false) := by
    intro fuel
    induction fuel with
    | zero =>
      intro idx hle
      left
      have hout : ¬ idx < days.length := by omega
      constructor
      · rw [eomFrom, dif_neg hout]
      · intro j hj
        exact dropCondB_false_of_not_lt (by omega)
    | succ n ih =>
      intro idx hle
      by_cases hin : idx < days.length
      · by_cases hdrop :
          (days.getD idx default).number < (days.getD (idx - 1) default).number
        · right
          refine ⟨idx, le_refl idx, ?_, ?_, ?_⟩
          · exact dropCondB_true_intro hin hdrop
          · rw [eomFrom, dif_pos hin, if_pos hdrop]
          · intro i h1 h2; omega
        · have hrec : eomFrom days idx = eomFrom days (idx + 1) := by
            rw [eomFrom, dif_pos hin, if_neg hdrop]
          have := ih (idx + 1) (by omega)
          rcases this with ⟨h1, h2⟩ | ⟨j, hj1, hj2, hj3, hj4⟩
          · left
            refine ⟨hrec.trans h1, ?_⟩
            intro j hj
            rcases Nat.eq_or_lt_of_le hj with h | h
            · subst h; exact dropCondB_false_of_ge hdrop
            · exact h2 j (by omega)
          · right
            refine ⟨j, by omega, hj2, hrec.trans hj3, ?_⟩
            intro i h1 h2
            rcases Nat.eq_or_lt_of_le h1 with h | h
            · subst h; exact dropCondB_false_of_ge hdrop
            · exact hj4 i (by omega) h2
      · left
        constructor
        · rw [eomFrom, dif_neg hin]
        · intro j hj
          exact dropCondB_false_of_not_lt (by omega)
  exact key (days.length - idx) idx (le_refl _)

theorem dropCondB_of_dayDropAt {days : List Day} {j : Nat} (h : dayDropAt days j) :
    dropCondB days j = true :=
  dropCondB_true_intro h.2.1 h.2.2

theorem dayDropAt_of_dropCondB {days : List Day} {j : Nat}
    (h : dropCondB days j = true) (hj : 0 < j) : dayDropAt days j := by
  simp only [dropCondB, Bool.and_eq_true, decide_eq_true_eq] at h
  exact ⟨hj, h.1, h.2⟩

/-- C6: the derived `end_of_month` equals the smallest index `idx ≥ 1` whose
day number is smaller than its predecessor's, and equals `days.length` when no
such index exists. -/
theorem end_of_month_spec (days : List Day) :
    (∀ idx, dayDropAt days idx → end_of_month days ≤ idx) ∧
    ((∃ idx, dayDropAt days idx) → dayDropAt days (end_of_month days)) ∧
    ((¬ ∃ idx, dayDropAt days idx) → end_of_month days = days.length) := by
  have h := eomFrom_spec days 1
  rcases h with ⟨h1, h2⟩ | ⟨j, hj1, hj2, hj3, hj4⟩
  · have noDrop : ¬ ∃ idx, dayDropAt days idx := by
      rintro ⟨idx, hidx⟩
      have h0 : 0 < idx := hidx.1
      have := h2 idx (by omega)
      rw [dropCondB_of_dayDropAt hidx] at this
      exact Bool.true_eq_false.mp this
    refine ⟨?_, ?_, ?_⟩
    · intro idx hidx; exact absurd ⟨idx, hidx⟩ noDrop
    · intro hex; exact absurd hex noDrop
    · intro _; exact h1
  · have hd : dayDropAt days j := dayDropAt_of_dropCondB hj2 (by omega)
    refine ⟨?_, ?_, ?_⟩
    · intro idx hidx
      rw [end_of_month, hj3]
      by_contra hlt
      push_neg at hlt
      have h1le : 1 ≤ idx := hidx.1
      have := hj4 idx h1le hlt
      rw [dropCondB_of_dayDropAt hidx] at this
      exact Bool.true_eq_false.mp this
    · intro _
      rw [end_of_month, hj3]; exact hd
    · intro hnone; exact absurd ⟨j, hd⟩ hnone

/-- C6 witness: on a concrete day list whose number drops at index 2, the
theorem yields the minimality bound and the drop at `end_of_month`. -/
theorem end_of_month_spec_witness :
    dayDropAt [⟨30, "L"⟩, ⟨31, "M"⟩, ⟨1, "X"⟩, ⟨2, "J"⟩] 2 ∧
    end_of_month [⟨30, "L"⟩, ⟨31, "M"⟩, ⟨1, "X"⟩, ⟨2, "J"⟩] ≤ 2 ∧
    dayDropAt [⟨30, "L"⟩, ⟨31, "M"⟩, ⟨1, "X"⟩, ⟨2, "J"⟩]
      (end_of_month [⟨30, "L"⟩, ⟨31, "M"⟩, ⟨1, "X"⟩, ⟨2, "J"⟩]) :=
  ⟨by decide,
   (end_of_month_spec [⟨30, "L"⟩, ⟨31, "M"⟩, ⟨1, "X"⟩, ⟨2, "J"⟩]).1 2 (by decide),
   (end_of_month_spec [⟨30, "L"⟩, ⟨31, "M"⟩, ⟨1, "X"⟩, ⟨2, "J"⟩]).2.1
     ⟨2, by decide⟩⟩

/-- C8: the shared target filter raises a configuration error exactly when
more than two of the four filter params are non-empty, or exactly two are
non-empty and the pair is neither include_ranks+exclude_names nor
exclude_ranks+include_names; a single filter or no filter never raises. -/
theorem targets_error_iff (inst : Instance) (fp : FilterParams) (rid : String) :
    (∃ e, targets inst fp rid = Except.error e) ↔
      (2 < (if fp.include_ranks ≠ [] then 1 else 0) + (if fp.exclude_ranks ≠ [] then 1 else 0)
            + (if fp.include_names ≠ [] then 1 else 0) + (if fp.exclude_names ≠ [] then 1 else 0) ∨
       ((if fp.include_ranks ≠ [] then 1 else 0) + (if fp.exclude_ranks ≠ [] then 1 else 0)
            + (if fp.include_names ≠ [] then 1 else 0) + (if fp.exclude_names ≠ [] then 1 else 0) = 2 ∧
        ¬ ((fp.include_ranks ≠ [] ∧ fp.exclude_names ≠ []) ∨
           (fp.exclude_ranks ≠ [] ∧ fp.include_names ≠ [])))) := by
  obtain ⟨ir, er, inn, en⟩ := fp
  rcases ir with _ | ⟨a1, l1⟩ <;> rcases er with _ | ⟨a2, l2⟩ <;>
    rcases inn with _ | ⟨a3, l3⟩ <;> rcases en with _ | ⟨a4, l4⟩ <;>
    simp [targets, activeFilters, pairAllowedSet]

/-- C10: with exclude_ranks+include_names the filter is disjunctive — a
whitelisted name is targeted even though its rank is excluded — while
include_ranks+exclude_names is conjunctive; both always drop residents on
external rotation. -/
theorem targets_two_filter_semantics (inst : Instance) (fp : FilterParams) (rid : String) :
    (fp.include_ranks = [] → fp.exclude_ranks ≠ [] → fp.include_names ≠ [] →
      fp.exclude_names = [] →
      ∃ l, targets inst fp rid = Except.ok l ∧ ∀ i r, (i, r) ∈ l ↔
        (inst.residents[i]? = some r ∧ i ∉ inst.external_rotations ∧
          (r.rank ∉ fp.exclude_ranks ∨ r.name ∈ fp.include_names))) ∧
    (fp.include_ranks ≠ [] → fp.exclude_ranks = [] → fp.include_names = [] →
      fp.exclude_names ≠ [] →
      ∃ l, targets inst fp rid = Except.ok l ∧ ∀ i r, (i, r) ∈ l ↔
        (inst.residents[i]? = some r ∧ i ∉ inst.external_rotations ∧
          r.rank ∈ fp.include_ranks ∧ r.name ∉ fp.exclude_names)) := by
  obtain ⟨ir, er, inn, en⟩ := fp
  constructor
  · intro h1 h2 h3 h4
    subst h1; subst h4
    rcases er with _ | ⟨a2, l2⟩
    · exact absurd rfl h2
    rcases inn with _ | ⟨a3, l3⟩
    · exact absurd rfl h3
    refine ⟨_, rfl, ?_⟩
    intro i r
    simp [targets, activeFilters, pairAllowedSet, targetPred, List.mem_filter,
      List.mk_mem_enum_iff_getElem?, List.elem_iff, and_assoc]
  · intro h1 h2 h3 h4
    subst h2; subst h3
    rcases ir with _ | ⟨a1, l1⟩
    · exact absurd rfl h1
    rcases en with _ | ⟨a4, l4⟩
    · exact absurd rfl h4
    refine ⟨_, rfl, ?_⟩
    intro i r
    simp [targets, activeFilters, pairAllowedSet, targetPred, List.mem_filter,
      List.mk_mem_enum_iff_getElem?, List.elem_iff, and_assoc]

theorem targets_two_filter_semantics_witness :
    (∃ l, targets instW10 fpW10a "r" = Except.ok l ∧ (0, ⟨"ana", "R1"⟩) ∈ l) ∧
    (∃ l, targets instW10 fpW10b "r" = Except.ok l ∧ (0, ⟨"ana", "R1"⟩) ∉ l) := by
  have h := targets_two_filter_semantics instW10 fpW10a "r"
  have h2 := targets_two_filter_semantics instW10 fpW10b "r"
  constructor
  · obtain ⟨l, hl, hmem⟩ := h.1 rfl (by decide) (by decide) rfl
    exact ⟨l, hl, (hmem 0 ⟨"ana", "R1"⟩).2 (by decide)⟩
  · obtain ⟨l, hl, hmem⟩ := h2.2 (by decide) rfl rfl (by decide)
    refine ⟨l, hl, fun hm => ?_⟩
    have := (hmem 0 ⟨"ana", "R1"⟩).1 hm
    revert this
    decide

theorem tnsVars_mem (inst : Instance) (i : Nat) (v : Nat × Nat × Nat) :
    v ∈ tnsVars inst i ↔ ∃ j k, v = (i, j, k) ∧ j < end_of_month inst.days ∧
      j < inst.days.length ∧ k < 4 := by
  simp only [tnsVars, List.mem_flatMap, List.mem_filter, List.mem_range,
    List.mem_map, decide_eq_true_eq]
  constructor
  · rintro ⟨j, ⟨hj1, hj2⟩, k, hk, rfl⟩
    exact ⟨j, k, rfl, hj2, hj1, hk⟩
  · rintro ⟨j, k, rfl, hj2, hj1, hk⟩
    exact ⟨j, ⟨hj1, hj2⟩, k, hk, rfl⟩

theorem tnsVars_nodup (inst : Instance) (i : Nat) : (tnsVars inst i).Nodup := by
  rw [tnsVars, List.nodup_flatMap]
  constructor
  · intro j _
    refine List.Nodup.map ?_ (List.nodup_range _)
    intro a b hab
    simpa using hab
  · have hpw : ((List.range inst.days.length).filter
        (fun j => decide (j < end_of_month inst.days))).Pairwise (· ≠ ·) :=
      ((List.nodup_range _).filter _)
    refine hpw.imp ?_
    intro a b hab
    simp only [Function.onFun]
    rw [List.disjoint_left]
    rintro x hx1 hx2
    simp only [List.mem_map, List.mem_range] at hx1 hx2
    obtain ⟨k1, _, rfl⟩ := hx1
    obtain ⟨k2, _, hx⟩ := hx2
    apply hab
    have := congrArg (fun p => p.2.1) hx
    simpa using this.symm

theorem tnsRhs_eq_max (inst : Instance) (total : Int) (i : Nat) :
    tnsRhs inst total i =
      max 0 (total - (inst.u_positions.countP (fun q => q.1 == i) : Int)
        - ((inst.ut_positions.countP (fun q => q.1 == i) : Nat) / 2 : Nat)) := by
  rw [tnsRhs]
  simp only [List.countP_eq_length_filter]
  set x : Int := total - ((inst.u_positions.filter (fun p => p.1 == i)).length : Int)
    - (((inst.ut_positions.filter (fun p => p.1 == i)).length : Nat) / 2 : Nat) with hx
  rcases le_or_lt 0 x with h | h
  · rw [if_neg (by omega), max_eq_right h]
  · rw [if_pos h, max_eq_left (by omega)]

/-- C7: `total_number_of_shifts` emits one enable-guarded constraint per
target resident `i`, summing `X[i,j,k]` over all shift types and all days
strictly before `end_of_month`, with right-hand side
`max(0, total - u_count(i) - floor(ut_count(i)/2))` where the counts range
over the whole instance. -/
theorem totalNumberOfShifts_apply_spec (inst : Instance) (p : Option Int)
    (idOpt : Option String) (total : Int) (fp : FilterParams) (cs : List Constraint)
    (h : Rule.apply (.totalNumberOfShifts p idOpt total fp) inst = Except.ok cs) :
    ∃ tl, targets inst fp (Rule.rule_id (.totalNumberOfShifts p idOpt total fp))
        = Except.ok tl ∧
      cs.length = tl.length ∧
      ∀ n (hn : n < cs.length) (hn2 : n < tl.length),
        ∃ vars rhs, cs.get ⟨n, hn⟩ = Constraint.sumEq vars rhs ∧
          (∀ v, v ∈ vars ↔ ∃ j k, v = ((tl.get ⟨n, hn2⟩).1, j, k) ∧
              j < end_of_month inst.days ∧ j < inst.days.length ∧ k < 4) ∧
          vars.Nodup ∧
          rhs = max 0 (total
            - (inst.u_positions.countP (fun q => q.1 == (tl.get ⟨n, hn2⟩).1) : Int)
            - ((inst.ut_positions.countP (fun q => q.1 == (tl.get ⟨n, hn2⟩).1) : Nat) / 2 : Nat)) := by
  rw [Rule.apply] at h
  rcases htl : targets inst fp (Rule.rule_id (.totalNumberOfShifts p idOpt total fp))
    with e | tl
  · rw [htl] at h
    exact absurd h (by simp)
  rw [htl] at h
  refine ⟨tl, rfl, ?_⟩
  have hcs : cs = (tl.map (fun q => q.1)).map
      (fun i => Constraint.sumEq (tnsVars inst i) (tnsRhs inst total i)) := by
    rcases tl with _ | ⟨hd, rest⟩
    · simpa using h.symm
    · simpa using h.symm
  subst hcs
  refine ⟨by simp, ?_⟩
  intro n hn hn2
  refine ⟨tnsVars inst ((tl.get ⟨n, hn2⟩).1), tnsRhs inst total ((tl.get ⟨n, hn2⟩).1),
    ?_, ?_, tnsVars_nodup _ _, tnsRhs_eq_max _ _ _⟩
  · simp [List.get_eq_getElem, List.getElem_map]
  · intro v
    exact tnsVars_mem inst _ v

theorem totalNumberOfShifts_apply_spec_witness :
    ∃ cs, Rule.apply (.totalNumberOfShifts none none 3 fpW7) instW7 = Except.ok cs ∧
      ∃ tl, targets instW7 fpW7
          (Rule.rule_id (.totalNumberOfShifts none none 3 fpW7)) = Except.ok tl ∧
        cs.length = tl.length ∧
        ∀ n (hn : n < cs.length) (hn2 : n < tl.length),
          ∃ vars rhs, cs.get ⟨n, hn⟩ = Constraint.sumEq vars rhs ∧
            (∀ v, v ∈ vars ↔ ∃ j k, v = ((tl.get ⟨n, hn2⟩).1, j, k) ∧
                j < end_of_month instW7.days ∧ j < instW7.days.length ∧ k < 4) ∧
            vars.Nodup ∧
            rhs = max 0 (3
              - (instW7.u_positions.countP (fun q => q.1 == (tl.get ⟨n, hn2⟩).1) : Int)
              - ((instW7.ut_positions.countP
                    (fun q => q.1 == (tl.get ⟨n, hn2⟩).1) : Nat) / 2 : Nat)) :=
  ⟨_, rfl, totalNumberOfShifts_apply_spec instW7 none none 3 fpW7 _ rfl⟩

theorem dictInsert_keys (k : String) (v : Nat) (l : List (String × Nat)) :
    (dictInsert k v l).map Prod.fst =
      if k ∈ l.map Prod.fst then l.map Prod.fst else l.map Prod.fst ++ [k] := by
  induction l with
  | nil => simp [dictInsert]
  | cons hd tl ih =>
    obtain ⟨k2, v2⟩ := hd
    by_cases hk : k2 = k
    · subst hk
      simp [dictInsert]
    · rw [dictInsert, if_neg hk]
      by_cases hmem : k ∈ tl.map Prod.fst
      · simp only [List.map_cons, ih, if_pos hmem]
        rw [if_pos (by simp [hmem])]
      · simp only [List.map_cons, ih, if_neg hmem]
        rw [if_neg (by simp [hmem]; exact fun h => hk h.symm)]
        simp

theorem dictInsert_keys_nodup {l : List (String × Nat)} (h : (l.map Prod.fst).Nodup)
    (k : String) (v : Nat) : ((dictInsert k v l).map Prod.fst).Nodup := by
  rw [dictInsert_keys]
  by_cases hmem : k ∈ l.map Prod.fst
  · rw [if_pos hmem]; exact h
  · rw [if_neg hmem]
    refine List.Nodup.append h (List.nodup_singleton _) ?_
    intro a ha hb
    rw [List.mem_singleton] at hb
    subst hb
    exact hmem ha

theorem mem_dictInsert {l : List (String × Nat)} (h : (l.map Prod.fst).Nodup)
    (k k2 : String) (v v2 : Nat) :
    ((k2, v2) ∈ dictInsert k v l) ↔
      (k2 = k ∧ v2 = v) ∨ (k2 ≠ k ∧ (k2, v2) ∈ l) := by
  induction l with
  | nil => simp [dictInsert]
  | cons hd tl ih =>
    obtain ⟨ka, va⟩ := hd
    simp only [List.map_cons, List.nodup_cons] at h
    by_cases hk : ka = k
    · subst hk
      rw [dictInsert, if_pos rfl]
      constructor
      · intro hmem
        rcases List.mem_cons.mp hmem with heq | hmem2
        · rw [Prod.mk.injEq] at heq
          obtain ⟨rfl, rfl⟩ := heq
          exact Or.inl ⟨rfl, rfl⟩
        · refine Or.inr ⟨?_, List.mem_cons_of_mem _ hmem2⟩
          rintro rfl
          exact h.1 (List.mem_map_of_mem Prod.fst hmem2)
      · rintro (⟨rfl, rfl⟩ | ⟨hne, hmem2⟩)
        · exact List.mem_cons_self _ _
        · rcases List.mem_cons.mp hmem2 with heq | hmem3
          · rw [Prod.mk.injEq] at heq
            exact absurd heq.1 hne
          · exact List.mem_cons_of_mem _ hmem3
    · rw [dictInsert, if_neg hk]
      constructor
      · intro hmem
        rcases List.mem_cons.mp hmem with heq | hmem2
        · rw [Prod.mk.injEq] at heq
          obtain ⟨rfl, rfl⟩ := heq
          exact Or.inr ⟨fun hh => hk hh, List.mem_cons_self _ _⟩
        · rcases (ih h.2).mp hmem2 with ⟨rfl, rfl⟩ | ⟨hne, hmem3⟩
          · exact Or.inl ⟨rfl, rfl⟩
          · exact Or.inr ⟨hne, List.mem_cons_of_mem _ hmem3⟩
      · rintro (⟨rfl, rfl⟩ | ⟨hne, hmem2⟩)
        · exact List.mem_cons_of_mem _ ((ih h.2).mpr (Or.inl ⟨rfl, rfl⟩))
        · rcases List.mem_cons.mp hmem2 with heq | hmem3
          · rw [Prod.mk.injEq] at heq
            obtain ⟨rfl, rfl⟩ := heq
            exact List.mem_cons_self _ _
          · exact List.mem_cons_of_mem _ ((ih h.2).mpr (Or.inr ⟨hne, hmem3⟩))

theorem applyRulesAux_spec (inst : Instance) :
    ∀ (rest : List Rule) (n : Nat) (cs0 : List Constraint) (en0 : List (String × Nat)),
      (en0.map Prod.fst).Nodup →
      (∀ r ∈ rest, ∃ rcs, Rule.apply r inst = Except.ok rcs) →
      ∃ cs en, applyRulesAux inst n rest cs0 en0 = Except.ok (cs, en) ∧
        (∀ c ∈ cs0, c ∈ cs) ∧
        (∀ r ∈ rest, ∀ rcs, Rule.apply r inst = Except.ok rcs → ∀ c ∈ rcs, c ∈ cs) ∧
        (∀ rid m, (rid, m) ∈ en ↔
          (((rid, m) ∈ en0 ∧
              ∀ i (hi : i < rest.length), (rest.get ⟨i, hi⟩).rule_id ≠ rid) ∨
            (∃ i, ∃ hi : i < rest.length, m = n + i ∧
              (rest.get ⟨i, hi⟩).rule_id = rid ∧
              ∀ j (hj : j < rest.length), i < j →
                (rest.get ⟨j, hj⟩).rule_id ≠ rid))) := by
  intro rest
  induction rest with
  | nil =>
    intro n cs0 en0 hnd _
    refine ⟨cs0, en0, rfl, fun c hc => hc, fun r hr => absurd hr (List.not_mem_nil r), ?_⟩
    intro rid m
    constructor
    · intro hmem
      exact Or.inl ⟨hmem, fun i hi => absurd hi (by simp)⟩
    · rintro (⟨hmem, _⟩ | ⟨i, hi, _⟩)
      · exact hmem
      · exact absurd hi (by simp)
  | cons r rest2 ih =>
    intro n cs0 en0 hnd hall
    obtain ⟨rcs, hrcs⟩ := hall r (List.mem_cons_self _ _)
    have hstep : applyRulesAux inst n (r :: rest2) cs0 en0 =
        applyRulesAux inst (n + 1) rest2 (cs0 ++ rcs) (dictInsert r.rule_id n en0) := by
      rw [applyRulesAux, hrcs]
    obtain ⟨cs, en, heq, hcs0, hrules, hchar⟩ :=
      ih (n + 1) (cs0 ++ rcs) (dictInsert r.rule_id n en0)
        (dictInsert_keys_nodup hnd _ _)
        (fun r2 hr2 => hall r2 (List.mem_cons_of_mem _ hr2))
    refine ⟨cs, en, hstep.trans heq, ?_, ?_, ?_⟩
    · intro c hc
      exact hcs0 c (List.mem_append_left _ hc)
    · intro r2 hr2 rcs2 hrcs2 c hc
      rcases List.mem_cons.mp hr2 with rfl | hr3
      · rw [hrcs] at hrcs2
        injection hrcs2 with hh
        subst hh
        exact hcs0 c (List.mem_append_right _ hc)
      · exact hrules r2 hr3 rcs2 hrcs2 c hc
    · intro rid m
      rw [hchar rid m, mem_dictInsert hnd]
      constructor
      · rintro (⟨(⟨rfl, rfl⟩ | ⟨hne, hmem⟩), hnone⟩ | ⟨i, hi, hm, hget, hafter⟩)
        · refine Or.inr ⟨0, by simp, by omega, rfl, ?_⟩
          intro j hj hjpos
          rcases j with _ | j2
          · omega
          · exact hnone j2 (by simpa using hj)
        · refine Or.inl ⟨hmem, ?_⟩
          intro i hi
          rcases i with _ | i2
          · exact fun hh => hne hh.symm
          · exact hnone i2 (by simpa using hi)
        · refine Or.inr ⟨i + 1, by simpa using hi, by omega, hget, ?_⟩
          intro j hj hjgt
          rcases j with _ | j2
          · omega
          · exact hafter j2 (by simpa using hj) (by omega)
      · rintro (⟨hmem, hnone⟩ | ⟨i, hi, hm, hget, hafter⟩)
        · have hne : rid ≠ r.rule_id := by
            intro hh
            exact (hnone 0 (by simp)) hh.symm
          refine Or.inl ⟨Or.inr ⟨hne, hmem⟩, ?_⟩
          intro i hi
          exact hnone (i + 1) (by simpa using hi)
        · rcases i with _ | i2
          · refine Or.inl ⟨Or.inl ⟨hget.symm, by omega⟩, ?_⟩
            intro i hi
            exact hafter (i + 1) (by simpa using hi) (by omega)
          · refine Or.inr ⟨i2, by simpa using hi, by omega, hget, ?_⟩
            intro j hj hjgt
            exact hafter (j + 1) (by simpa using hj) (by omega)

/-- C3 counterexample: `apply_rules` accepts two rule instances with the same
`rule_id` and returns normally, so no configuration error is raised before
solving. -/
theorem apply_rules_duplicate_ids_no_error :
    Rule.rule_id (.oneShiftPerDay none (some "dup")) =
      Rule.rule_id (.totalNumberOfShifts none (some "dup") 1 ⟨[], [], [], []⟩) ∧
    ∃ out, apply_rules instW3 dupRules = Except.ok out :=
  ⟨rfl, _, rfl⟩

/-- C3 amended: `apply_rules` performs no duplicate-id check.  When every rule
applies successfully it succeeds even with repeated rule ids; every rule's
constraints are emitted, and the enables dict keeps, for each rule id, the
enable literal of the last rule instance carrying that id. -/
theorem apply_rules_duplicates_last_wins (inst : Instance) (rules : List Rule)
    (h : ∀ r ∈ rules, ∃ rcs, Rule.apply r inst = Except.ok rcs) :
    ∃ cs en, apply_rules inst rules = Except.ok (cs, en) ∧
      (∀ r ∈ rules, ∀ rcs, Rule.apply r inst = Except.ok rcs → ∀ c ∈ rcs, c ∈ cs) ∧
      ∀ rid m, (rid, m) ∈ en ↔
        (∃ hm : m < rules.length, (rules.get ⟨m, hm⟩).rule_id = rid ∧
          ∀ j (hj : j < rules.length), m < j →
            (rules.get ⟨j, hj⟩).rule_id ≠ rid) := by
  obtain ⟨cs, en, heq, _, hrules, hchar⟩ :=
    applyRulesAux_spec inst rules 0 [] [] (by simp) h
  refine ⟨cs, en, heq, hrules, ?_⟩
  intro rid m
  rw [hchar rid m]
  simp only [List.not_mem_nil, false_and, false_or]
  constructor
  · rintro ⟨i, hi, hm, hget, hafter⟩
    have hmi : m = i := by omega
    subst hmi
    exact ⟨hi, hget, hafter⟩
  · rintro ⟨hm, hget, hafter⟩
    exact ⟨m, hm, by omega, hget, hafter⟩

/-- C3 amended witness: on the concrete duplicate-id rule list, the enables
dict maps "dup" to the second (last) rule's literal, not the first's. -/
theorem apply_rules_duplicates_last_wins_witness :
    ∃ cs en, apply_rules instW3 dupRules = Except.ok (cs, en) ∧
      ("dup", 1) ∈ en ∧ ("dup", 0) ∉ en := by
  obtain ⟨cs, en, heq, _, hchar⟩ := apply_rules_duplicates_last_wins instW3 dupRules
    (by
      intro r hr
      rcases List.mem_cons.mp hr with rfl | hr2
      · exact ⟨_, rfl⟩
      · rcases List.mem_cons.mp hr2 with rfl | hr3
        · exact ⟨_, rfl⟩
        · exact absurd hr3 (List.not_mem_nil r))
  refine ⟨cs, en, heq, ?_, ?_⟩
  · refine (hchar "dup" 1).mpr ⟨by simp [dupRules], rfl, ?_⟩
    intro j hj hgt
    simp [dupRules] at hj
    omega
  · intro hmem
    obtain ⟨hm, _, hafter⟩ := (hchar "dup" 0).mp hmem
    exact hafter 1 (by simp [dupRules]) (by omega) rfl

theorem dedupKeepFirst_spec (l : List String) : ∀ seen,
    (∀ x ∈ dedupKeepFirst seen l, x ∈ l ∧ x ∉ seen) ∧
    (∀ x ∈ l, x ∉ seen → x ∈ dedupKeepFirst seen l) ∧
    (dedupKeepFirst seen l).Nodup ∧
    (dedupKeepFirst seen l).Pairwise (fun a b => l.indexOf a < l.indexOf b) := by
  induction l with
  | nil =>
    intro seen
    simp [dedupKeepFirst]
  | cons r rest ih =>
    intro seen
    by_cases hmem : r ∈ seen
    · rw [dedupKeepFirst, if_pos hmem]
      obtain ⟨h1, h2, h3, h4⟩ := ih seen
      refine ⟨?_, ?_, h3, ?_⟩
      · intro x hx
        exact ⟨List.mem_cons_of_mem _ (h1 x hx).1, (h1 x hx).2⟩
      · intro x hx hxs
        rcases List.mem_cons.mp hx with rfl | hx2
        · exact absurd hmem hxs
        · exact h2 x hx2 hxs
      · refine h4.imp_of_mem ?_
        intro a b ha hb hab
        have hna : a ≠ r := by
          rintro rfl
          exact (h1 a ha).2 hmem
        have hnb : b ≠ r := by
          rintro rfl
          exact (h1 b hb).2 hmem
        rw [List.indexOf_cons_ne rest (fun hh => hna hh.symm),
          List.indexOf_cons_ne rest (fun hh => hnb hh.symm)]
        omega
    · rw [dedupKeepFirst, if_neg hmem]
      obtain ⟨h1, h2, h3, h4⟩ := ih (r :: seen)
      refine ⟨?_, ?_, ?_, ?_⟩
      · intro x hx
        rcases List.mem_cons.mp hx with rfl | hx2
        · exact ⟨List.mem_cons_self _ _, hmem⟩
        · obtain ⟨hl, hs⟩ := h1 x hx2
          exact ⟨List.mem_cons_of_mem _ hl, fun hh => hs (List.mem_cons_of_mem _ hh)⟩
      · intro x hx hxs
        rcases List.mem_cons.mp hx with rfl | hx2
        · exact List.mem_cons_self _ _
        · by_cases hxr : x = r
          · subst hxr
            exact List.mem_cons_self _ _
          · refine List.mem_cons_of_mem _ (h2 x hx2 ?_)
            intro hh
            rcases List.mem_cons.mp hh with hh2 | hh3
            · exact hxr hh2
            · exact hxs hh3
      · rw [List.nodup_cons]
        refine ⟨fun hh => (h1 r hh).2 (List.mem_cons_self _ _), h3⟩
      · rw [List.pairwise_cons]
        constructor
        · intro b hb
          have hnb : b ≠ r := fun hh =>
            (h1 b hb).2 (hh ▸ List.mem_cons_self _ _)
          rw [List.indexOf_cons_self,
            List.indexOf_cons_ne rest (fun hh => hnb hh.symm)]
          omega
        · refine h4.imp_of_mem ?_
          intro a b ha hb hab
          have hna : a ≠ r := fun hh =>
            (h1 a ha).2 (hh ▸ List.mem_cons_self _ _)
          have hnb : b ≠ r := fun hh =>
            (h1 b hb).2 (hh ▸ List.mem_cons_self _ _)
          rw [List.indexOf_cons_ne rest (fun hh => hna hh.symm),
            List.indexOf_cons_ne rest (fun hh => hnb hh.symm)]
          omega

/-- C5: `_core_rule_ids` returns a duplicate-free list ordered by first
occurrence in the core, containing exactly the rule ids whose enable literal
matches a core literal by object identity or, as fallback, by literal name;
unmatched literals are dropped without raising. -/
theorem core_rule_ids_spec (core_lits : List Lit) (enables : List (String × Lit)) :
    (core_rule_ids core_lits enables).Nodup ∧
    (∀ r, r ∈ core_rule_ids core_lits enables ↔
      ∃ lit ∈ core_lits, coreLitToRid enables lit = some r) ∧
    (core_rule_ids core_lits enables).Pairwise (fun a b =>
      (core_lits.filterMap (coreLitToRid enables)).indexOf a
        < (core_lits.filterMap (coreLitToRid enables)).indexOf b) := by
  have h := dedupKeepFirst_spec (core_lits.filterMap (coreLitToRid enables)) []
  refine ⟨h.2.2.1, ?_, h.2.2.2⟩
  intro r
  constructor
  · intro hr
    have := (h.1 r hr).1
    simpa [List.mem_filterMap] using this
  · rintro ⟨lit, hlit, heq⟩
    exact h.2.1 r (List.mem_filterMap.mpr ⟨lit, hlit, heq⟩) (List.not_mem_nil r)

theorem extractCell_of_set (v : Nat → Nat → Nat → Bool) (i j k : Nat)
    (hu : ∀ k1 k2, k1 < 4 → k2 < 4 → v i j k1 = true → v i j k2 = true → k1 = k2)
    (hk : k < 4) (hv : v i j k = true) :
    extractCell v i j = shiftTypeNames.getD k "" := by
  have hfalse : ∀ m, m < 4 → m ≠ k → v i j m = false := by
    intro m hm hne
    by_contra hcon
    rw [Bool.not_eq_false] at hcon
    exact hne (hu m k hm hk hcon hv)
  interval_cases k
  · simp [extractCell, shiftTypeNames, List.find?, hv]
  · have h0 := hfalse 0 (by omega) (by omega)
    simp [extractCell, shiftTypeNames, List.find?, h0, hv]
  · have h0 := hfalse 0 (by omega) (by omega)
    have h1 := hfalse 1 (by omega) (by omega)
    simp [extractCell, shiftTypeNames, List.find?, h0, h1, hv]
  · have h0 := hfalse 0 (by omega) (by omega)
    have h1 := hfalse 1 (by omega) (by omega)
    have h2 := hfalse 2 (by omega) (by omega)
    simp [extractCell, shiftTypeNames, List.find?, h0, h1, h2, hv]

theorem extractCell_of_unset (v : Nat → Nat → Nat → Bool) (i j : Nat)
    (hall : ∀ k, k < 4 → v i j k = false) : extractCell v i j = "" := by
  have h0 := hall 0 (by omega)
  have h1 := hall 1 (by omega)
  have h2 := hall 2 (by omega)
  have h3 := hall 3 (by omega)
  simp [extractCell, shiftTypeNames, List.find?, h0, h1, h2, h3]

/-- C9: `_extract_matrix` is total over solver valuations and, when at most
one shift type is set per `(resident, day)`, produces one row per resident
and one column per day whose cell is the `ShiftType` name of the unique set
`k`, or the empty string when none is set. -/
theorem extract_matrix_spec (inst : Instance) (v : Nat → Nat → Nat → Bool)
    (hu : ∀ i j k1 k2, k1 < 4 → k2 < 4 → v i j k1 = true → v i j k2 = true →
      k1 = k2) :
    (extract_matrix inst v).length = inst.residents.length ∧
    (∀ row ∈ extract_matrix inst v, row.length = inst.days.length) ∧
    ∀ i j, i < inst.residents.length → j < inst.days.length →
      (∀ k, k < 4 → v i j k = true →
        ((extract_matrix inst v).getD i []).getD j "" = shiftTypeNames.getD k "") ∧
      ((∀ k, k < 4 → v i j k = false) →
        ((extract_matrix inst v).getD i []).getD j "" = "") := by
  have hcell : ∀ i j, i < inst.residents.length → j < inst.days.length →
      ((extract_matrix inst v).getD i []).getD j "" = extractCell v i j := by
    intro i j hi hj
    rw [extract_matrix]
    simp [List.getD_eq_getElem?_getD, List.getElem?_map, List.getElem?_range, hi, hj]
  refine ⟨by simp [extract_matrix], ?_, ?_⟩
  · intro row hrow
    rw [extract_matrix] at hrow
    obtain ⟨i, _, rfl⟩ := List.mem_map.mp hrow
    simp
  · intro i j hi hj
    rw [hcell i j hi hj]
    exact ⟨fun k hk hv => extractCell_of_set v i j k (hu i j) hk hv,
      extractCell_of_unset v i j⟩

theorem extract_matrix_spec_witness :
    ((extract_matrix instW9 vW9).getD 0 []).getD 0 "" = "G" ∧
    ((extract_matrix instW9 vW9).getD 1 []).getD 1 "" = "" := by
  have h := extract_matrix_spec instW9 vW9
    (fun i j k1 k2 h1 h2 hv1 hv2 => by
      simp [vW9] at hv1 hv2
      omega)
  constructor
  · exact (h.2.2 0 0 (by simp [instW9]) (by simp [instW9])).1 1 (by omega) (by decide)
  · exact (h.2.2 1 1 (by simp [instW9]) (by simp [instW9])).2 (by decide)

theorem shrinkLoop_spec (oracle : List String → Bool)
    (mono : ∀ S T : List String, (∀ x ∈ S, x ∈ T) → oracle S = true →
      oracle T = true) :
    ∀ (rest mus : List String), oracle mus = true → mus.Nodup →
      (∀ x ∈ mus, x ∉ rest → oracle (mus.filter (fun y => y != x)) = false) →
      (shrinkLoop oracle mus rest).Sublist mus ∧
      oracle (shrinkLoop oracle mus rest) = true ∧
      (shrinkLoop oracle mus rest).Nodup ∧
      (∀ x ∈ shrinkLoop oracle mus rest,
        oracle ((shrinkLoop oracle mus rest).filter (fun y => y != x)) = false) := by
  intro rest
  induction rest with
  | nil =>
    intro mus hor hnd hinv
    rw [shrinkLoop]
    exact ⟨List.Sublist.refl mus, hor, hnd,
      fun x hx => hinv x hx (List.not_mem_nil x)⟩
  | cons rid rest ih =>
    intro mus hor hnd hinv
    by_cases hmem : rid ∈ mus
    · by_cases htrial : oracle (mus.filter (fun x => x != rid)) = true
      · rw [shrinkLoop, if_pos hmem, if_pos htrial]
        have hor2 : oracle (mus.erase rid) = true := by
          refine mono _ _ ?_ htrial
          intro x hx
          rw [List.mem_filter] at hx
          have hne : x ≠ rid := by simpa using hx.2
          exact (List.mem_erase_of_ne hne).mpr hx.1
        have hinv2 : ∀ x ∈ mus.erase rid, x ∉ rest →
            oracle ((mus.erase rid).filter (fun y => y != x)) = false := by
          intro x hx hxr
          have hxmus : x ∈ mus := List.mem_of_mem_erase hx
          have hxne : x ≠ rid := by
            rintro rfl
            exact hnd.not_mem_erase hx
          have hbig := hinv x hxmus (by
            rw [List.mem_cons]
            rintro (rfl | hc)
            · exact hxne rfl
            · exact hxr hc)
          by_contra hcon
          rw [Bool.not_eq_false] at hcon
          have := mono _ _ (fun y hy => by
            rw [List.mem_filter] at hy ⊢
            exact ⟨List.mem_of_mem_erase hy.1, hy.2⟩) hcon
          rw [this] at hbig
          exact Bool.noConfusion hbig
        obtain ⟨s1, s2, s3, s4⟩ := ih (mus.erase rid) hor2 (hnd.erase rid) hinv2
        exact ⟨s1.trans (List.erase_sublist rid mus), s2, s3, s4⟩
      · rw [shrinkLoop, if_pos hmem, if_neg htrial]
        refine ih mus hor hnd ?_
        intro x hx hxr
        by_cases hxrid : x = rid
        · subst hxrid
          exact Bool.eq_false_iff.mpr htrial
        · refine hinv x hx (by
            rw [List.mem_cons]
            rintro (rfl | hc)
            · exact hxrid rfl
            · exact hxr hc)
    · rw [shrinkLoop, if_neg hmem]
      refine ih mus hor hnd ?_
      intro x hx hxr
      refine hinv x hx (by
        rw [List.mem_cons]
        rintro (rfl | hc)
        · exact hmem hx
        · exact hxr hc)

/-- C4: for a duplicate-free infeasible core list and a monotone infeasibility
oracle, the deletion loop of `_shrink_core_to_mus` returns a subsequence of
the core that is still infeasible and subset-minimal: erasing any single
remaining id yields a feasible assumption set. -/
theorem shrink_core_to_mus_spec (oracle : List String → Bool) (C : List String)
    (mono : ∀ S T : List String, (∀ x ∈ S, x ∈ T) → oracle S = true →
      oracle T = true)
    (hC : oracle C = true) (hnd : C.Nodup) :
    (shrink_core_to_mus oracle C).Sublist C ∧
    oracle (shrink_core_to_mus oracle C) = true ∧
    ∀ x ∈ shrink_core_to_mus oracle C,
      oracle ((shrink_core_to_mus oracle C).erase x) = false := by
  obtain ⟨hsub, hor, hnd2, hmin⟩ := shrinkLoop_spec oracle mono C C hC hnd
    (fun x hx hxr => absurd hx hxr)
  refine ⟨hsub, hor, ?_⟩
  intro x hx
  rw [shrink_core_to_mus] at hx ⊢
  rw [List.Nodup.erase_eq_filter hnd2 x]
  exact hmin x hx

theorem shrink_core_to_mus_spec_witness :
    (shrink_core_to_mus wOracle4 ["a", "b", "c"]).Sublist ["a", "b", "c"] ∧
    wOracle4 (shrink_core_to_mus wOracle4 ["a", "b", "c"]) = true ∧
    ∀ x ∈ shrink_core_to_mus wOracle4 ["a", "b", "c"],
      wOracle4 ((shrink_core_to_mus wOracle4 ["a", "b", "c"]).erase x) = false :=
  shrink_core_to_mus_spec wOracle4 ["a", "b", "c"]
    (fun S T hsub h => by
      simp only [wOracle4, Bool.and_eq_true, decide_eq_true_eq] at h ⊢
      exact ⟨hsub _ h.1, hsub _ h.2⟩)
    (by decide) (by decide)

theorem foldl_max_ge (xs : List Int) (a : Int) :
    a ≤ xs.foldl max a ∧ ∀ x ∈ xs, x ≤ xs.foldl max a := by
  induction xs generalizing a with
  | nil => simp
  | cons b xs ih =>
    obtain ⟨h1, h2⟩ := ih (max a b)
    refine ⟨le_trans (le_max_left a b) h1, ?_⟩
    intro x hx
    rcases List.mem_cons.mp hx with rfl | hx2
    · exact le_trans (le_max_right a x) h1
    · exact h2 x hx2

theorem foldl_max_mem (xs : List Int) (a : Int) :
    xs.foldl max a = a ∨ xs.foldl max a ∈ xs := by
  induction xs generalizing a with
  | nil => simp
  | cons b xs ih =>
    rcases ih (max a b) with h | h
    · rcases max_cases a b with ⟨hm, _⟩ | ⟨hm, _⟩
      · left
        rw [List.foldl_cons, h, hm]
      · right
        rw [List.foldl_cons, h, hm]
        exact List.mem_cons_self _ _
    · right
      exact List.mem_cons_of_mem _ h

theorem listMaxI_ge {l : List Int} (x : Int) (hx : x ∈ l) : x ≤ listMaxI l := by
  rcases l with _ | ⟨p, ps⟩
  · exact absurd hx (List.not_mem_nil x)
  · rcases List.mem_cons.mp hx with rfl | hx2
    · exact (foldl_max_ge ps x).1
    · exact (foldl_max_ge ps p).2 x hx2

theorem listMaxI_mem {l : List Int} (h : l ≠ []) : listMaxI l ∈ l := by
  rcases l with _ | ⟨p, ps⟩
  · exact absurd rfl h
  · rw [listMaxI]
    rcases foldl_max_mem ps p with hm | hm
    · rw [hm]; exact List.mem_cons_self _ _
    · exact List.mem_cons_of_mem _ hm

theorem filter_head_spec {α : Type} (p : α → Bool) (l : List α) (d : α)
    (rest : List α) (h : l.filter p = d :: rest) :
    ∃ i, ∃ hi : i < l.length, l.get ⟨i, hi⟩ = d ∧ p d = true ∧
      ∀ j (hj : j < l.length), j < i → p (l.get ⟨j, hj⟩) = false := by
  induction l generalizing rest with
  | nil => exact absurd h (by simp)
  | cons a l ih =>
    by_cases hpa : p a = true
    · rw [List.filter_cons_of_pos hpa] at h
      injection h with h1 h2
      subst h1
      exact ⟨0, by simp, rfl, hpa, fun j hj hlt => absurd hlt (by omega)⟩
    · rw [List.filter_cons_of_neg (by simpa using hpa)] at h
      obtain ⟨i, hi, hget, hpd, hbefore⟩ := ih rest h
      refine ⟨i + 1, by simpa using hi, hget, hpd, ?_⟩
      intro j hj hlt
      rcases j with _ | j2
      · simpa using Bool.eq_false_iff.mpr hpa
      · exact hbefore j2 (by simpa using hj) (by omega)

/-- C1: in the INFEASIBLE branch of `assign`, when some core member is still
in `active_ids`, exactly one rule is disabled: among enabled core members
those with the largest priority, and of those the first in core order, is
removed from `active_ids` and appended to `relaxed`; when no core member is
enabled, `assign` returns the failure result (`matrix = None`). -/
theorem relaxStep_spec (prio : String → Int) (core_rids active relaxed : List String)
    (fc : Option (List String)) :
    ((∀ r ∈ core_rids, r ∉ active) →
      relaxStep prio core_rids active relaxed fc = RelaxStepResult.fail
        (match fc with | none => some core_rids | some c => some c)) ∧
    (∀ r0 ∈ core_rids, r0 ∈ active →
      ∃ d, relaxStep prio core_rids active relaxed fc =
          RelaxStepResult.next (active.filter (fun x => x != d)) (relaxed ++ [d])
            (match fc with | none => some core_rids | some c => some c) ∧
        d ∈ core_rids ∧ d ∈ active ∧
        (∀ r ∈ core_rids, r ∈ active → prio r ≤ prio d) ∧
        ∃ i, ∃ hi : i < core_rids.length, core_rids.get ⟨i, hi⟩ = d ∧
          ∀ j (hj : j < core_rids.length), j < i →
            ¬(core_rids.get ⟨j, hj⟩ ∈ active ∧
              prio (core_rids.get ⟨j, hj⟩) = prio d)) := by
  constructor
  · intro hnone
    have hfil : core_rids.filter (fun rid => decide (rid ∈ active)) = [] := by
      rw [List.filter_eq_nil_iff]
      intro a ha
      simpa using hnone a ha
    rw [relaxStep.eq_def]
    simp only [hfil, List.isEmpty_nil, if_true]
  · intro r0 hr0c hr0a
    have hr0e : r0 ∈ core_rids.filter (fun rid => decide (rid ∈ active)) :=
      List.mem_filter.mpr ⟨hr0c, by simpa using hr0a⟩
    have hne : core_rids.filter (fun rid => decide (rid ∈ active)) ≠ [] := by
      intro hh
      rw [hh] at hr0e
      exact List.not_mem_nil r0 hr0e
    have hmapne : (core_rids.filter (fun rid => decide (rid ∈ active))).map prio
        ≠ [] := by
      simpa [List.map_eq_nil_iff] using hne
    obtain ⟨e, hee, hpe⟩ := List.mem_map.mp (listMaxI_mem hmapne)
    have hecand : e ∈ core_rids.filter (fun rid =>
        decide (rid ∈ core_rids.filter (fun r2 => decide (r2 ∈ active))) &&
        decide (prio rid = listMaxI
          ((core_rids.filter (fun r2 => decide (r2 ∈ active))).map prio))) := by
      rw [List.mem_filter]
      refine ⟨(List.mem_filter.mp hee).1, ?_⟩
      simp only [Bool.and_eq_true, decide_eq_true_eq]
      exact ⟨hee, hpe⟩
    have hcne : core_rids.filter (fun rid =>
        decide (rid ∈ core_rids.filter (fun r2 => decide (r2 ∈ active))) &&
        decide (prio rid = listMaxI
          ((core_rids.filter (fun r2 => decide (r2 ∈ active))).map prio))) ≠ [] := by
      intro hh
      rw [hh] at hecand
      exact List.not_mem_nil e hecand
    obtain ⟨d, rest, hdc⟩ := List.exists_cons_of_ne_nil hcne
    have hdmem : d ∈ core_rids.filter (fun rid =>
        decide (rid ∈ core_rids.filter (fun r2 => decide (r2 ∈ active))) &&
        decide (prio rid = listMaxI
          ((core_rids.filter (fun r2 => decide (r2 ∈ active))).map prio))) := by
      rw [hdc]
      exact List.mem_cons_self _ _
    rw [List.mem_filter] at hdmem
    obtain ⟨hd_core, hdp⟩ := hdmem
    rw [Bool.and_eq_true, decide_eq_true_eq, decide_eq_true_eq] at hdp
    obtain ⟨hd_en, hd_prio⟩ := hdp
    have hd_active : d ∈ active := by
      simpa using (List.mem_filter.mp hd_en).2
    refine ⟨d, ?_, hd_core, hd_active, ?_, ?_⟩
    · rw [relaxStep.eq_def]
      rw [if_neg (by simp [hne])]
      simp only [hdc]
    · intro r hrc hra
      have hrm : prio r ∈ (core_rids.filter (fun r2 => decide (r2 ∈ active))).map
          prio :=
        List.mem_map_of_mem prio (List.mem_filter.mpr ⟨hrc, by simpa using hra⟩)
      rw [hd_prio]
      exact listMaxI_ge _ hrm
    · obtain ⟨i, hi, hget, hpd, hbefore⟩ := filter_head_spec _ core_rids d rest hdc
      refine ⟨i, hi, hget, ?_⟩
      intro j hj hlt
      have hb := hbefore j hj hlt
      rw [Bool.eq_false_iff] at hb
      rintro ⟨hjact, hjprio⟩
      refine hb ?_
      simp only [Bool.and_eq_true, decide_eq_true_eq]
      refine ⟨List.mem_filter.mpr ⟨List.get_mem _ _ _, by simpa using hjact⟩, ?_⟩
      rw [hjprio, hd_prio]

theorem relaxStep_spec_witness :
    (relaxStep prioW1 ["lo", "hi", "hi2"] [] [] none =
      RelaxStepResult.fail (some ["lo", "hi", "hi2"])) ∧
    ∃ d, relaxStep prioW1 ["lo", "hi", "hi2"] ["lo", "hi", "hi2"] [] none =
        RelaxStepResult.next
          ((["lo", "hi", "hi2"] : List String).filter (fun x => x != d))
          ([] ++ [d]) (some ["lo", "hi", "hi2"]) ∧
      d ∈ (["lo", "hi", "hi2"] : List String) ∧
      d ∈ (["lo", "hi", "hi2"] : List String) := by
  constructor
  · exact (relaxStep_spec prioW1 ["lo", "hi", "hi2"] [] [] none).1 (by decide)
  · obtain ⟨d, heq, h1, h2, _, _⟩ :=
      (relaxStep_spec prioW1 ["lo", "hi", "hi2"] ["lo", "hi", "hi2"] [] none).2
        "lo" (by decide) (by decide)
    exact ⟨d, heq, h1, h2⟩

/-- C2 exhibit: the `build_model` that exists in `model/build.py` returns the
4-tuple `(model, instance, shifts, enables)` — its second component echoes
the instance — and its enable keys are the static registry ids, independent
of any rule-instance list (the function has no `rules` parameter at all), so
it is not the claimed triple-returning assembler that `assign`/`validate`
call. -/
theorem build_model_optionB_shape (inst : Instance)
    (em : Option (List (String × Bool))) :
    (build_model_optionB inst em none).inst = inst ∧
    (build_model_optionB inst em none).enables.map Prod.fst = BUILDERS_ids := by
  refine ⟨rfl, ?_⟩
  show (BUILDERS_ids.enum.map (fun p => (p.2, p.1))).map Prod.fst = BUILDERS_ids
  rw [List.map_map]
  exact List.enum_map_snd BUILDERS_ids

end ExcelShifts
